import Mathlib

/-!
Verification of the MindMerger repository padding compaction, mapping
network, constructor freezing logic, staged-training dispatch, batch
translation and bilingual-pair harvesting, via a shallow embedding of the
Python sources into Lean.

Tensors of shape `(bs, L)` are modelled as `List (List _)` (a list of `bs`
rows of length `L`); tensors of shape `(bs, L, dim)` are modelled as
`List (List α)` where each `α` element stands for one `dim`-vector.
-/

namespace MindMerger

/-- Model of `torch.Tensor.sort(dim, descending=False)` restricted to the
index output (argsort): the row indices permuted so that the keys are
ascending.  PyTorch does not specify the order of equal keys; we fix one
total sorting function (insertion sort).  All proofs below rely only on the
output being an ascending reordering of `keys.enum`. -/
def tensorSortIdx (keys : List Nat) : List Nat :=
  (List.insertionSort (fun a b => a.2 ≤ b.2) keys.enum).map (fun p => p.1)

/-- Boolean-mask indexing `row[keep]` of one row (`torch` advanced indexing
with a boolean tensor keeps the entries whose mask is `True`, in order). -/
def maskSelect {α : Type} (keep : List Bool) (row : List α) : List α :=
  ((keep.zip row).filter (fun p => p.1)).map (fun p => p.2)

/-- The entries of `h` sitting at the nonzero-mask positions of `m`, in their
original relative order. -/
def selectedVectors {α : Type} (m : List Nat) (h : List α) : List α :=
  ((m.zip h).filter (fun p => p.1 != 0)).map (fun p => p.2)

/-- Number of nonzero entries of a mask row. -/
def onesCount (m : List Nat) : Nat := m.countP (fun v => v != 0)

/-- Maximum over the rows of a mask batch of the number of nonzero entries. -/
def maxOnes (masks : List (List Nat)) : Nat := (masks.map onesCount).foldr max 0

/-- Model of `torch.arange(start, stop)`. -/
def arange (start stop : Nat) : List Nat := List.range' start (stop - start)

namespace MindReasoner

/-- The tensor `offset = torch.tensor([(i + 1) for i in range(seq_num_len)])` from
`MindReasoner.squeeze_pad`. -/
def offset (seq_num_len : Nat) : List Nat :=
  (List.range seq_num_len).map (fun i => i + 1)

/-- Lean model of `MindReasoner.squeeze_pad`.  Row by row, the nonzero-mask
entries are keyed by `position + 1` and the zero-mask entries by `0`; an
ascending sort of the keys moves the padding to the front of each row; the
columns whose mask column-sum is zero (padding in every row) are dropped by
boolean indexing, and `view(bs, -1, dim)` regroups the surviving entries row
by row (each row keeps the same columns, so the regrouping is exact).
The returned third component models the expanded boolean index tensor. -/
def squeeze_pad {α : Type} [Inhabited α]
    (hidden_states : List (List α)) (masks : List (List Nat)) :
    List (List α) × List (List Nat) × List (List Bool) :=
  let seq_num_len := (masks.headD []).length
  let off := offset seq_num_len
  let idxs := masks.map (fun m =>
    tensorSortIdx (List.zipWith (fun v o => (if v != 0 then 1 else 0) * o) m off))
  let masks1 := List.zipWith (fun m idx => idx.map (fun i => m.getD i 0)) masks idxs
  let hidden1 := List.zipWith (fun h idx => idx.map (fun i => h.getD i default))
    hidden_states idxs
  let masks_sum := (List.range seq_num_len).map
    (fun j => (masks1.map (fun r => r.getD j 0)).sum)
  let keep := masks_sum.map (fun s => decide (0 < s))
  let masks2 := masks1.map (fun r => maskSelect keep r)
  let hidden2 := hidden1.map (fun r => maskSelect keep r)
  (hidden2, masks2, List.replicate masks1.length keep)

end MindReasoner

namespace NaiveMindReasoner

/-- The tensor `offset = torch.arange(1, seq_num_len + 1)` from
`NaiveMindReasoner.squeeze_pad`. -/
def offset (seq_num_len : Nat) : List Nat := arange 1 (seq_num_len + 1)

/-- Lean model of `NaiveMindReasoner.squeeze_pad`; identical to the
`MindReasoner` version except that the offset tensor is built with
`torch.arange` instead of a list comprehension. -/
def squeeze_pad {α : Type} [Inhabited α]
    (hidden_states : List (List α)) (masks : List (List Nat)) :
    List (List α) × List (List Nat) × List (List Bool) :=
  let seq_num_len := (masks.headD []).length
  let off := offset seq_num_len
  let idxs := masks.map (fun m =>
    tensorSortIdx (List.zipWith (fun v o => (if v != 0 then 1 else 0) * o) m off))
  let masks1 := List.zipWith (fun m idx => idx.map (fun i => m.getD i 0)) masks idxs
  let hidden1 := List.zipWith (fun h idx => idx.map (fun i => h.getD i default))
    hidden_states idxs
  let masks_sum := (List.range seq_num_len).map
    (fun j => (masks1.map (fun r => r.getD j 0)).sum)
  let keep := masks_sum.map (fun s => decide (0 < s))
  let masks2 := masks1.map (fun r => maskSelect keep r)
  let hidden2 := hidden1.map (fun r => maskSelect keep r)
  (hidden2, masks2, List.replicate masks1.length keep)

end NaiveMindReasoner

/-! Parameter-level model of the constructors (claims about `requires_grad`
flags and LoRA injection).  A `torch` parameter is reduced to its
`requires_grad` flag; the pretrained models loaded by `from_pretrained` are
opaque inputs, given as their parameter lists with arbitrary initial flags. -/

/-- One `torch.nn.Parameter`, reduced to its `requires_grad` flag. -/
structure TorchParam where
  requiresGrad : Bool
deriving DecidableEq

/-- The parameters of the `Mapping` module: `nn.Linear` creates its weight
and bias with `requires_grad=True`, and `end_boundary` is created with
`requires_grad=True` explicitly. -/
structure MappingNet where
  linear1_weight : TorchParam
  linear1_bias : TorchParam
  linear2_weight : TorchParam
  linear2_bias : TorchParam
  end_boundary : TorchParam
deriving DecidableEq

/-- Construction of the `Mapping` module (`Mapping.__init__`): every
parameter is trainable. -/
def MappingNet.init : MappingNet :=
  ⟨⟨true⟩, ⟨true⟩, ⟨true⟩, ⟨true⟩, ⟨true⟩⟩

/-- Model of `Mapping.parameters()`. -/
def MappingNet.params (net : MappingNet) : List TorchParam :=
  [net.linear1_weight, net.linear1_bias, net.linear2_weight, net.linear2_bias,
   net.end_boundary]

/-- The LoRA configuration built when `use_lora` is on and `peft` is
available. -/
structure LoraConfig where
  r : Nat
  lora_alpha : Nat
  lora_dropout : ℚ
  target_modules : List String
deriving DecidableEq

/-- State of a reasoner right after `__init__`: the flags of the translation
model parameters, of the LLM parameters, the mapping module, and the
LoRA configuration injected into the LLM (if any). -/
structure ReasonerState where
  model_mt : List TorchParam
  model_llm : List TorchParam
  mapping : MappingNet
  use_lora : Bool
  lora : Option LoraConfig
deriving DecidableEq

/-- Lean model of `MindReasoner.__init__`: freezes every parameter of
`model_mt` and `model_llm`, builds the trainable mapping module, and then
either injects LoRA (when `use_lora` and `peft` is available), raises
`ImportError` (when `use_lora` and `peft` is unavailable), or does
nothing. -/
def MindReasoner.init (mt_params llm_params : List TorchParam)
    (use_lora : Bool) (lora_r lora_alpha : Nat) (lora_dropout : ℚ)
    (peft_available : Bool) : Except String ReasonerState :=
  let model_mt := mt_params.map (fun _ => TorchParam.mk false)
  let model_llm := llm_params.map (fun _ => TorchParam.mk false)
  let mapping := MappingNet.init
  if use_lora && peft_available then
    .ok ⟨model_mt, model_llm, mapping, use_lora,
      some ⟨lora_r, lora_alpha, lora_dropout, ["q_proj", "v_proj"]⟩⟩
  else if use_lora && !peft_available then
    .error ("peft is not installed. Please install via pip install peft.")
  else
    .ok ⟨model_mt, model_llm, mapping, use_lora, none⟩

/-- Lean model of `NaiveMindReasoner.__init__`; identical freezing and LoRA
logic, with a configurable `target_modules` list. -/
def NaiveMindReasoner.init (mt_params llm_params : List TorchParam)
    (use_lora : Bool) (lora_r lora_alpha : Nat) (lora_dropout : ℚ)
    (target_modules : List String) (peft_available : Bool) :
    Except String ReasonerState :=
  let model_mt := mt_params.map (fun _ => TorchParam.mk false)
  let model_llm := llm_params.map (fun _ => TorchParam.mk false)
  let mapping := MappingNet.init
  if use_lora && peft_available then
    .ok ⟨model_mt, model_llm, mapping, use_lora,
      some ⟨lora_r, lora_alpha, lora_dropout, target_modules⟩⟩
  else if use_lora && !peft_available then
    .error ("peft is not installed. Please install via pip install peft.")
  else
    .ok ⟨model_mt, model_llm, mapping, use_lora, none⟩

/-! Value-level model of the mapping network (claim C4).  A vector is a
`List ℚ`; `nn.Linear(i, o)` applies `weight @ x + bias` with `weight` an
`o × i` matrix. -/

/-- Matrix-vector product. -/
def matVec (weight : List (List ℚ)) (x : List ℚ) : List ℚ :=
  weight.map (fun row => (List.zipWith (fun a b => a * b) row x).sum)

/-- Model of the `nn.Linear` forward pass `weight @ x + bias`. -/
def linearF (weight : List (List ℚ)) (bias : List ℚ) (x : List ℚ) : List ℚ :=
  List.zipWith (fun a b => a + b) (matVec weight x) bias

/-- Model of the `nn.ReLU` forward pass, elementwise `max 0`. -/
def reluF (x : List ℚ) : List ℚ := x.map (fun v => max v 0)

/-- The weights of the `MLP` module: `linear1 = nn.Linear(mt_dim, mt_dim * 2)`
and `linear2 = nn.Linear(mt_dim * 2, llm_dim)`. -/
structure MLP where
  linear1_w : List (List ℚ)
  linear1_b : List ℚ
  linear2_w : List (List ℚ)
  linear2_b : List ℚ
deriving DecidableEq

/-- Shapes produced by `MLP.__init__(mt_dim, llm_dim)`. -/
def MLP.wf (net : MLP) (mt_dim llm_dim : Nat) : Prop :=
  net.linear1_w.length = 2 * mt_dim ∧ (∀ row ∈ net.linear1_w, row.length = mt_dim)
  ∧ net.linear1_b.length = 2 * mt_dim
  ∧ net.linear2_w.length = llm_dim ∧ (∀ row ∈ net.linear2_w, row.length = 2 * mt_dim)
  ∧ net.linear2_b.length = llm_dim

/-- Lean model of `MLP.forward`: `linear2(relu(linear1(x)))`. -/
def MLP.forward (net : MLP) (mt_hidden_state : List ℚ) : List ℚ :=
  linearF net.linear2_w net.linear2_b
    (reluF (linearF net.linear1_w net.linear1_b mt_hidden_state))

/-- The `Mapping` module: the MLP plus the `end_boundary` parameter value. -/
structure Mapping where
  mlp : MLP
  end_boundary : List ℚ
deriving DecidableEq

/-- Lean model of `Mapping.forward`: applies the MLP only; it reads no other
field and writes nothing, so `end_boundary` is untouched. -/
def Mapping.forward (m : Mapping) (hidden_states : List ℚ) : List ℚ :=
  m.mlp.forward hidden_states

/-- Lean model of `Mapping.get_embed`. -/
def Mapping.get_embed (m : Mapping) : List ℚ := m.end_boundary

/-! Label construction inside `forward` (claim C5), elementwise over
`(bs, L)` integer tensors. -/

/-- The expression `pad_labels = llm_input_mask * -100 + (1 - llm_input_mask) * -100`. -/
def pad_labels (llm_input_mask : List (List Int)) : List (List Int) :=
  llm_input_mask.map (fun row => row.map (fun m => m * -100 + (1 - m) * -100))

/-- The expression `labels = labels * mask_label - 100 * (1 - mask_label)`. -/
def mask_labels (labels mask_label : List (List Int)) : List (List Int) :=
  List.zipWith
    (fun lrow mrow => List.zipWith (fun l m => l * m - 100 * (1 - m)) lrow mrow)
    labels mask_label

/-! Stage dispatch of `run_training_naive_reasoning.main` (claim C7).  The
`read_*` dataset loaders live in `mindmerger_tools`, outside the sources;
they are modelled as opaque tags recording which loader is called with which
arguments. -/

/-- Which training-set loader the stage dispatch selects. -/
inductive TrainSetChoice where
  | lego (train_num : Nat) (languages : List String)
  | americas_lego (train_num : Nat) (languages : List String)
  | math_train (train_num : Nat)
  | americas_xnli_train
  | x_csqa_train
  | xnli_train
deriving DecidableEq

/-- Model of the Python substring test `pat in s`. -/
def strContains (s pat : String) : Bool := (s.splitOn pat).length != 1

/-- Lean model of the stage dispatch in `main`: picks the training set for
`mapping`, `augmentation` and `reasoning` and raises `ValueError` on
any other `stage_name`. -/
def select_train_set (stage_name task : String) (train_num : Nat) :
    Except String TrainSetChoice :=
  if stage_name = "mapping" then
    if strContains task ("math") then
      .ok (.lego train_num ["Bengali", "Thai", "Swahili", "Japanese", "Chinese",
        "German", "French", "Russian", "Spanish"])
    else if strContains task ("nli") then
      .ok (.americas_lego train_num ["Aymara", "Guarani", "Quechua"])
    else if strContains task ("csqa") then
      .ok (.lego train_num ["Urdu", "Hindi", "Swahili", "Japanese", "Vietnamese",
        "Polish", "Chinese", "Flemish", "Russian", "Italian", "German",
        "Portuguese", "French", "Spanish", "Arabic"])
    else
      .ok (.lego train_num ["Swahili", "Urdu", "Hindi", "Thai", "Arabic",
        "Turkish", "Greek", "Vietnamese", "Chinese", "Russian", "Bulgarian",
        "German", "French", "Spanish"])
  else if stage_name = "augmentation" then
    if strContains task ("math") then .ok (.math_train train_num)
    else if strContains task ("nli") then .ok .americas_xnli_train
    else if strContains task ("csqa") then .ok .x_csqa_train
    else .ok .xnli_train
  else if stage_name = "reasoning" then
    if strContains task ("math") then .ok (.math_train train_num)
    else if strContains task ("nli") then .ok .americas_xnli_train
    else if strContains task ("csqa") then .ok .x_csqa_train
    else .ok .xnli_train
  else
    .error ("Unknown stage_name: " ++ stage_name)

/-- The flag `use_lora` computed in `main`: on exactly for the reasoning stage. -/
def use_lora_for_stage (stage_name : String) : Bool := stage_name = "reasoning"

/-! Gradient-accumulation configuration (claim C8). -/

/-- The quantity `train_batch_size // (train_micro_batch_size_per_gpu * gpu_num)`. -/
def gradient_accumulation (train_batch_size train_micro_batch_size_per_gpu gpu_num : Nat) :
    Nat :=
  train_batch_size / (train_micro_batch_size_per_gpu * gpu_num)

/-- The `assert train_micro_batch_size_per_gpu * gpu_num * gradient_accumulation ==
train_batch_size` that guards DeepSpeed setup. -/
def grad_accum_assert (train_batch_size train_micro_batch_size_per_gpu gpu_num : Nat) :
    Bool :=
  train_micro_batch_size_per_gpu * gpu_num *
      gradient_accumulation train_batch_size train_micro_batch_size_per_gpu gpu_num
    == train_batch_size

/-! Batch translation (claim C9). -/

/-- Python `range(start, stop, step)` for a positive step (and `[]` for
`step = 0`, which never occurs). -/
def pyRange (start stop step : Nat) : List Nat :=
  List.range' start ((stop - start + step - 1) / step) step

/-- The consecutive slices `sentences[i:i+batch_size]` taken by the loop
`for i in range(0, len(sentences), batch_size)`. -/
def batches {α : Type} (sentences : List α) (batch_size : Nat) : List (List α) :=
  (pyRange 0 sentences.length batch_size).map
    (fun i => (sentences.drop i).take batch_size)

/-- Lean model of `translate_sentences_in_batches`: the tokenizer /
`model.generate` / `batch_decode` pipeline is an opaque function `gen` from a
batch to its decoded outputs; the loop extends the accumulator with the
outputs of each slice. -/
def translate_sentences_in_batches {α β : Type} (gen : List α → List β)
    (sentences : List α) (batch_size : Nat) : List β :=
  ((pyRange 0 sentences.length batch_size).map
    (fun i => gen ((sentences.drop i).take batch_size))).flatten

/-! Bilingual-pairs harvesting (claim C10). -/

/-- The constant `num_samples = 9000` in `datas/bilingual_pairs_extraction.py`. -/
def num_samples : Nat := 9000

/-- The extraction loop: `for i, item in enumerate(dataset): if i >=
num_samples: break; ...append source and target`.  A dataset item is reduced
to its `(source, target)` sentence pair. -/
def extract_sentences : List (String × String) → Nat → Nat →
    List String × List String
  | [], _, _ => ([], [])
  | item :: rest, ns, i =>
    if ns ≤ i then ([], [])
    else
      let p := extract_sentences rest ns (i + 1)
      (item.1 :: p.1, item.2 :: p.2)

/-- The write loop: `for src_line, tgt_line in zip(source_sentences,
target_sentences)` writes `src_line.strip()` to the source file and
`tgt_line.strip()` to the target file.  Returns the two files as their line
lists. -/
def write_pair_files (source_sentences target_sentences : List String) :
    List String × List String :=
  ((source_sentences.zip target_sentences).map (fun p => p.1.trim),
   (source_sentences.zip target_sentences).map (fun p => p.2.trim))

/-! Helper lemmas about enumeration and the sort used by `squeeze_pad`. -/

/-- Position components of `enumFrom` are strictly increasing. -/
theorem pairwise_fst_lt_enumFrom {α : Type} (l : List α) (s : Nat) :
    (List.enumFrom s l).Pairwise (fun a b => a.1 < b.1) := by
  induction l generalizing s with
  | nil => simp
  | cons x xs ih =>
    rw [List.enumFrom_cons]
    refine List.Pairwise.cons (fun p hp => ?_) (ih (s + 1))
    have hp' : (p.1, p.2) ∈ List.enumFrom (s + 1) xs := by simpa using hp
    obtain ⟨h1, -, -⟩ := List.mem_enumFrom hp'
    omega

/-- Membership in `enum` determines the entry at the recorded position. -/
theorem enum_getD {α : Type} (l : List α) (d : α) (p : Nat × α) (hp : p ∈ l.enum) :
    p.1 < l.length ∧ l.getD p.1 d = p.2 := by
  have hp' : (p.1, p.2) ∈ List.enumFrom 0 l := by simpa [List.enum] using hp
  obtain ⟨-, h2, h3⟩ := List.mem_enumFrom hp'
  have hlt : p.1 < l.length := by simpa using h2
  refine ⟨hlt, ?_⟩
  rw [List.getD_eq_getElem l d hlt]
  simpa using h3.symm

/-- The head of `dropWhile p l` falsifies `p`. -/
theorem dropWhile_eq_cons_imp {α : Type} (p : α → Bool) (l : List α) (a : α)
    (r : List α) (h : l.dropWhile p = a :: r) : p a = false := by
  induction l with
  | nil => simp at h
  | cons x xs ih =>
    rw [List.dropWhile_cons] at h
    split at h
    · exact ih h
    · cases h
      next hpx => simpa using hpx

/-- Nonzero keys of a mask row keyed against offsets `s+1, s+2, ...` are the
nonzero-mask positions, each keyed by its position plus one. -/
theorem enum_keys_filter (m : List Nat) (s n : Nat) (hn : m.length ≤ n) :
    ((List.zipWith (fun v o => (if v != 0 then 1 else 0) * o) m
        (List.range' (s + 1) n)).enumFrom s).filter (fun p => p.2 != 0)
      = ((List.enumFrom s m).filter (fun p => p.2 != 0)).map
          (fun p => (p.1, p.1 + 1)) := by
  induction m generalizing s n with
  | nil => simp
  | cons v m' ih =>
    cases n with
    | zero => simp at hn
    | succ n' =>
      have hn' : m'.length ≤ n' := by simpa using hn
      rw [List.range'_succ]
      by_cases hv : v = 0
      · subst hv
        simpa [List.enumFrom_cons, List.filter_cons] using ih (s + 1) n' hn'
      · have hv' : (v != 0) = true := by simpa using hv
        simp only [List.zipWith_cons_cons, hv', if_pos, List.enumFrom_cons,
          List.filter_cons]
        have h1 : ((s, 1 * (s + 1)).2 != 0) = true := by simp
        simp only [h1, if_pos, hv']
        rw [ih (s + 1) n' hn']
        simp

/-- Counting nonzero keys in an enumerated mask row. -/
theorem length_filter_snd_enumFrom (m : List Nat) (s : Nat) :
    ((List.enumFrom s m).filter (fun p => p.2 != 0)).length = onesCount m := by
  induction m generalizing s with
  | nil => simp [onesCount]
  | cons v m' ih =>
    by_cases hv : v = 0
    · subst hv
      simpa [List.enumFrom_cons, List.filter_cons, onesCount, List.countP_cons]
        using ih (s + 1)
    · have hv' : (v != 0) = true := by simpa using hv
      simp [List.enumFrom_cons, List.filter_cons, hv', onesCount,
        List.countP_cons, ih (s + 1)]

/-- The `MindReasoner` offset list is `torch.arange(1, seq_num_len + 1)`. -/
theorem offset_eq_range' (L : Nat) : MindReasoner.offset L = List.range' 1 L := by
  simp [MindReasoner.offset, List.range'_eq_map_range, Nat.add_comm]

/-- The two offset constructions agree. -/
theorem offset_eq_naive (L : Nat) :
    MindReasoner.offset L = NaiveMindReasoner.offset L := by
  rw [offset_eq_range']
  simp [NaiveMindReasoner.offset, arange]

/-- Entries of the key row of a mask row. -/
theorem keys_getD (L : Nat) (m : List Nat) (hm : m.length = L) (i : Nat)
    (hi : i < L) :
    (List.zipWith (fun v o => (if v != 0 then 1 else 0) * o) m
        (MindReasoner.offset L)).getD i 0
      = (if m.getD i 0 != 0 then 1 else 0) * (i + 1) := by
  have hoff : (MindReasoner.offset L).length = L := by
    simp [MindReasoner.offset]
  have hlen : (List.zipWith (fun v o => (if v != 0 then 1 else 0) * o) m
      (MindReasoner.offset L)).length = L := by
    simp [List.length_zipWith, hm, hoff]
  rw [List.getD_eq_getElem _ _ (by omega : i < (List.zipWith (fun v o =>
    (if v != 0 then 1 else 0) * o) m (MindReasoner.offset L)).length)]
  rw [List.getElem_zipWith]
  have hoffi : (MindReasoner.offset L).getD i 0 = i + 1 := by
    rw [List.getD_eq_getElem _ _ (by omega)]
    simp [MindReasoner.offset]
  rw [← List.getD_eq_getElem m 0 (by omega : i < m.length),
    ← List.getD_eq_getElem (MindReasoner.offset L) 0 (by omega), hoffi]

/-- Characterization of the argsort of a key row: some arrangement of the
zero-key (padding) positions, followed by the nonzero-mask positions in
increasing order. -/
theorem tensorSortIdx_spec (L : Nat) (m : List Nat) (hm : m.length = L) :
    ∃ zs : List Nat,
      tensorSortIdx (List.zipWith (fun v o => (if v != 0 then 1 else 0) * o) m
          (MindReasoner.offset L))
        = zs ++ (m.enum.filter (fun p => p.2 != 0)).map (fun p => p.1)
      ∧ zs.length = L - onesCount m
      ∧ (∀ i ∈ zs, i < L ∧ m.getD i 0 = 0) := by
  set keys := List.zipWith (fun v o => (if v != 0 then 1 else 0) * o) m
    (MindReasoner.offset L) with hkeys
  have hkL : keys.length = L := by
    simp [hkeys, List.length_zipWith, hm, MindReasoner.offset]
  set S := List.insertionSort (fun a b : Nat × Nat => a.2 ≤ b.2) keys.enum with hS
  have hperm : S.Perm keys.enum := List.perm_insertionSort _ _
  haveI : IsTotal (Nat × Nat) (fun a b => a.2 ≤ b.2) :=
    ⟨fun a b => Nat.le_total a.2 b.2⟩
  haveI : IsTrans (Nat × Nat) (fun a b => a.2 ≤ b.2) :=
    ⟨fun _ _ _ h1 h2 => le_trans h1 h2⟩
  have hsort : S.Pairwise (fun a b => a.2 ≤ b.2) :=
    List.sorted_insertionSort (fun a b : Nat × Nat => a.2 ≤ b.2) keys.enum
  set t := S.takeWhile (fun p => p.2 == 0) with ht
  set d := S.dropWhile (fun p => p.2 == 0) with hd
  have htd : t ++ d = S := List.takeWhile_append_dropWhile _ _
  have ht0 : ∀ p ∈ t, p.2 = 0 := by
    intro p hp
    have := List.mem_takeWhile_imp hp
    simpa using this
  have hpair_td : (t ++ d).Pairwise (fun a b : Nat × Nat => a.2 ≤ b.2) := by
    rw [htd]; exact hsort
  have hd_sorted : d.Pairwise (fun a b : Nat × Nat => a.2 ≤ b.2) :=
    (List.pairwise_append.mp hpair_td).2.1
  have hd_ne : ∀ p ∈ d, p.2 ≠ 0 := by
    cases hdc : d with
    | nil => simp
    | cons a r =>
      have ha : (fun p : Nat × Nat => p.2 == 0) a = false :=
        dropWhile_eq_cons_imp _ S a r (by rw [← hd, hdc])
      have ha' : a.2 ≠ 0 := by simpa using ha
      intro p hp
      rcases List.mem_cons.mp hp with rfl | hp'
      · exact ha'
      · have hpair : List.Pairwise (fun a b : Nat × Nat => a.2 ≤ b.2) (a :: r) :=
          hdc ▸ hd_sorted
        have hrel : a.2 ≤ p.2 := List.rel_of_pairwise_cons hpair hp'
        omega
  have hfilter_s : S.filter (fun p => p.2 != 0) = d := by
    rw [← htd, List.filter_append]
    have h1 : t.filter (fun p => p.2 != 0) = [] := by
      rw [List.filter_eq_nil_iff]
      intro p hp
      simpa using ht0 p hp
    have h2 : d.filter (fun p => p.2 != 0) = d := by
      rw [List.filter_eq_self]
      intro p hp
      simpa using hd_ne p hp
    rw [h1, h2, List.nil_append]
  have hpos : keys.enum.filter (fun p => p.2 != 0)
      = ((List.enumFrom 0 m).filter (fun p => p.2 != 0)).map
          (fun p => (p.1, p.1 + 1)) := by
    have := enum_keys_filter m 0 L (le_of_eq hm)
    rw [hkeys, offset_eq_range']
    simpa [List.enum] using this
  have hdperm : d.Perm (keys.enum.filter (fun p => p.2 != 0)) := by
    rw [← hfilter_s]
    exact hperm.filter _
  have hpos_pairwise : (keys.enum.filter (fun p => p.2 != 0)).Pairwise
      (fun a b => a.2 < b.2) := by
    rw [hpos]
    rw [List.pairwise_map]
    have hfst : ((List.enumFrom 0 m).filter (fun p => p.2 != 0)).Pairwise
        (fun a b => a.1 < b.1) :=
      (pairwise_fst_lt_enumFrom m 0).filter _
    exact hfst.imp (by intro a b hab; simpa using hab)
  have hd_strict : d.Pairwise (fun a b => a.2 < b.2) := by
    have hnodup : ((keys.enum.filter (fun p => p.2 != 0)).map
        (fun p => p.2)).Nodup := by
      have : ((keys.enum.filter (fun p => p.2 != 0)).map
          (fun p => p.2)).Pairwise (fun a b => a ≠ b) := by
        rw [List.pairwise_map]
        exact hpos_pairwise.imp (fun h => Nat.ne_of_lt h)
      exact this
    have hdnodup : (d.map (fun p => p.2)).Nodup :=
      ((hdperm.map (fun p => p.2)).nodup_iff).mpr hnodup
    have hdne2 : d.Pairwise (fun a b : Nat × Nat => a.2 ≠ b.2) :=
      List.pairwise_map.mp hdnodup
    exact (hd_sorted.and hdne2).imp (fun h => lt_of_le_of_ne h.1 h.2)
  have hd_eq : d = keys.enum.filter (fun p => p.2 != 0) := by
    haveI : IsAntisymm (Nat × Nat) (fun a b => a.2 < b.2) :=
      ⟨fun a b h1 h2 => absurd (lt_trans h1 h2) (lt_irrefl _)⟩
    exact List.eq_of_perm_of_sorted hdperm hd_strict hpos_pairwise
  have hmain : tensorSortIdx keys = t.map (fun p => p.1)
      ++ (m.enum.filter (fun p => p.2 != 0)).map (fun p => p.1) := by
    rw [tensorSortIdx, ← hS, ← htd, List.map_append, hd_eq, hpos]
    rw [List.map_map]
    congr 1
  refine ⟨t.map (fun p => p.1), hmain, ?_, ?_⟩
  · have hSlen : S.length = L := by
      rw [hperm.length_eq, List.enum_length, hkL]
    have hdlen : d.length = onesCount m := by
      rw [hd_eq, hpos, List.length_map]
      simpa [List.enum] using length_filter_snd_enumFrom m 0
    have htlen : t.length + d.length = L := by
      have := congrArg List.length htd
      simpa [List.length_append, hSlen] using this
    have hcle : onesCount m ≤ L := by
      have := List.countP_le_length (fun v => v != 0) (l := m)
      simpa [onesCount, hm] using this
    rw [List.length_map]
    omega
  · intro i hi
    obtain ⟨p, hp, rfl⟩ := List.mem_map.mp hi
    have hp0 : p.2 = 0 := ht0 p hp
    have hpS : p ∈ S := by rw [← htd]; exact List.mem_append_left _ hp
    have hpE : p ∈ keys.enum := hperm.subset hpS
    obtain ⟨hlt, hgd⟩ := enum_getD keys 0 p hpE
    have hltL : p.1 < L := by omega
    have hkey0 : keys.getD p.1 0 = 0 := by rw [hgd, hp0]
    have hkval := keys_getD L m hm p.1 hltL
    rw [← hkeys] at hkval
    refine ⟨hltL, ?_⟩
    by_contra hne
    have hmne : (m.getD p.1 0 != 0) = true := by simpa using hne
    rw [hkval, hmne] at hkey0
    simp at hkey0

/-- Unfolding `selectedVectors` on a cons cell. -/
theorem selectedVectors_cons {α : Type} (v : Nat) (m : List Nat) (x : α)
    (h : List α) :
    selectedVectors (v :: m) (x :: h)
      = if v != 0 then x :: selectedVectors m h else selectedVectors m h := by
  simp only [selectedVectors, List.zip_cons_cons, List.filter_cons]
  by_cases hv : (v != 0) = true
  · simp [hv]
  · simp only [Bool.not_eq_true] at hv
    simp [hv]

/-- Reading a list at the nonzero-mask positions recorded by an enumeration
yields exactly the selected entries. -/
theorem map_getD_filter_enumFrom {α : Type} (m : List Nat) (H : List α) (d : α)
    (s : Nat) (hle : s + m.length ≤ H.length) :
    ((List.enumFrom s m).filter (fun p => p.2 != 0)).map (fun p => H.getD p.1 d)
      = selectedVectors m (H.drop s) := by
  induction m generalizing s with
  | nil => simp [selectedVectors]
  | cons v m' ih =>
    have hs : s < H.length := by simp at hle; omega
    have hdrop : H.drop s = H[s] :: H.drop (s + 1) := List.drop_eq_getElem_cons hs
    have hgd : H.getD s d = H[s] := List.getD_eq_getElem H d hs
    have hle' : s + 1 + m'.length ≤ H.length := by simp at hle; omega
    rw [List.enumFrom_cons, hdrop, selectedVectors_cons]
    by_cases hv : v = 0
    · subst hv
      simpa [List.filter_cons] using ih (s + 1) hle'
    · have hv' : (v != 0) = true := by simpa using hv
      simp only [List.filter_cons, hv', if_true]
      have hcond : (((s, v) : Nat × Nat).2 != 0) = true := by simpa using hv
      simp only [hcond, if_true, List.map_cons]
      rw [ih (s + 1) hle', hgd]

/-- Selecting a mask row against itself keeps its nonzero entries. -/
theorem selectedVectors_self (m : List Nat) :
    selectedVectors m m = m.filter (fun v => v != 0) := by
  induction m with
  | nil => simp [selectedVectors]
  | cons v m' ih =>
    by_cases hv : v = 0
    · subst hv
      simpa [selectedVectors, List.filter_cons] using ih
    · have hv' : (v != 0) = true := by simpa using hv
      simpa [selectedVectors, List.filter_cons, hv'] using ih

/-- Length of the selected entries. -/
theorem selectedVectors_length {α : Type} (m : List Nat) (h : List α)
    (hlen : m.length ≤ h.length) :
    (selectedVectors m h).length = onesCount m := by
  induction m generalizing h with
  | nil => simp [selectedVectors, onesCount]
  | cons v m' ih =>
    cases h with
    | nil => simp at hlen
    | cons x h' =>
      have hlen' : m'.length ≤ h'.length := by simpa using hlen
      by_cases hv : v = 0
      · subst hv
        simpa [selectedVectors, List.filter_cons, onesCount, List.countP_cons]
          using ih h' hlen'
      · have hv' : (v != 0) = true := by simpa using hv
        simp only [selectedVectors, List.zip_cons_cons, List.filter_cons, hv',
          if_pos, List.map_cons, List.length_cons, onesCount, List.countP_cons]
        have := ih h' hlen'
        simp only [selectedVectors, onesCount] at this
        omega

/-- Selected entries are entries of the data row. -/
theorem selectedVectors_subset {α : Type} (m : List Nat) (h : List α) (v : α)
    (hv : v ∈ selectedVectors m h) : v ∈ h := by
  simp only [selectedVectors, List.mem_map, List.mem_filter] at hv
  obtain ⟨p, ⟨hpz, -⟩, rfl⟩ := hv
  exact (List.of_mem_zip hpz).2

/-- The sorted mask row: padding zeros first, then the nonzero entries. -/
theorem row_gather_mask (L : Nat) (m : List Nat) (hm : m.length = L)
    (h01 : ∀ v ∈ m, v = 0 ∨ v = 1) :
    (tensorSortIdx (List.zipWith (fun v o => (if v != 0 then 1 else 0) * o) m
        (MindReasoner.offset L))).map (fun i => m.getD i 0)
      = List.replicate (L - onesCount m) 0 ++ List.replicate (onesCount m) 1 := by
  obtain ⟨zs, hmain, hzlen, hzmem⟩ := tensorSortIdx_spec L m hm
  rw [hmain, List.map_append]
  congr 1
  · rw [List.eq_replicate_iff]
    constructor
    · rw [List.length_map]; exact hzlen
    · intro b hb
      obtain ⟨i, hi, rfl⟩ := List.mem_map.mp hb
      exact (hzmem i hi).2
  · rw [List.map_map]
    have hsel : (m.enum.filter (fun p => p.2 != 0)).map (fun p => m.getD p.1 0)
        = selectedVectors m m := by
      have := map_getD_filter_enumFrom m m 0 0 (by omega)
      simpa [List.enum] using this
    have hcomp : ((fun i => m.getD i 0) ∘ (fun p : Nat × Nat => p.1))
        = fun p : Nat × Nat => m.getD p.1 0 := rfl
    rw [hcomp, hsel, selectedVectors_self]
    rw [List.eq_replicate_iff]
    constructor
    · rw [← List.countP_eq_length_filter]; rfl
    · intro b hb
      obtain ⟨hbm, hb0⟩ := List.mem_filter.mp hb
      rcases h01 b hbm with rfl | rfl
      · simp at hb0
      · rfl

/-- The sorted data row: arbitrary padding entries (all drawn from the row)
first, then the selected entries in their original order. -/
theorem row_gather_hidden {α : Type} [Inhabited α] (L : Nat) (m : List Nat)
    (h : List α) (hm : m.length = L) (hh : h.length = L) :
    ∃ zs : List α,
      (tensorSortIdx (List.zipWith (fun v o => (if v != 0 then 1 else 0) * o) m
          (MindReasoner.offset L))).map (fun i => h.getD i default)
        = zs ++ selectedVectors m h
      ∧ zs.length = L - onesCount m
      ∧ (∀ v ∈ zs, v ∈ h) := by
  obtain ⟨zs, hmain, hzlen, hzmem⟩ := tensorSortIdx_spec L m hm
  refine ⟨zs.map (fun i => h.getD i default), ?_, ?_, ?_⟩
  · rw [hmain, List.map_append, List.map_map]
    congr 1
    have hcomp : ((fun i => h.getD i default) ∘ (fun p : Nat × Nat => p.1))
        = fun p : Nat × Nat => h.getD p.1 default := rfl
    rw [hcomp]
    have := map_getD_filter_enumFrom m h default 0 (by omega)
    simpa [List.enum] using this
  · rw [List.length_map]; exact hzlen
  · intro v hv
    obtain ⟨i, hi, rfl⟩ := List.mem_map.mp hv
    have hiL : i < L := (hzmem i hi).1
    rw [List.getD_eq_getElem h default (by omega)]
    exact List.getElem_mem _

/-- Boolean selection with a block mask keeps a middle window. -/
theorem maskSelect_replicate {α : Type} (a b : Nat) (row : List α) :
    maskSelect (List.replicate a false ++ List.replicate b true) row
      = (row.drop a).take b := by
  induction a generalizing row with
  | zero =>
    simp only [List.replicate_zero, List.nil_append, List.drop_zero]
    induction b generalizing row with
    | zero => simp [maskSelect]
    | succ b' ihb =>
      cases row with
      | nil => simp [maskSelect]
      | cons x row' =>
        simp only [List.replicate_succ, List.zip_cons_cons, maskSelect,
          List.filter_cons, List.take_succ_cons]
        simpa [maskSelect] using ihb row'
  | succ a' iha =>
    cases row with
    | nil => simp [maskSelect]
    | cons x row' =>
      simp only [List.replicate_succ, List.cons_append, List.zip_cons_cons,
        maskSelect, List.filter_cons, List.drop_succ_cons]
      simpa [maskSelect] using iha row'

/-- Every entry kept by boolean selection is an entry of the row. -/
theorem maskSelect_subset {α : Type} (keep : List Bool) (row : List α) (v : α)
    (hv : v ∈ maskSelect keep row) : v ∈ row := by
  simp only [maskSelect, List.mem_map, List.mem_filter] at hv
  obtain ⟨p, ⟨hpz, -⟩, rfl⟩ := hv
  exact (List.of_mem_zip hpz).2

/-- The fold `foldr max 0` bounds every entry. -/
theorem le_foldr_max (l : List Nat) (x : Nat) (hx : x ∈ l) :
    x ≤ l.foldr max 0 := by
  induction l with
  | nil => simp at hx
  | cons y l' ih =>
    rcases List.mem_cons.mp hx with rfl | hx'
    · exact le_max_left _ _
    · exact le_trans (ih hx') (le_max_right _ _)

/-- The fold `foldr max 0` of a nonempty list is attained. -/
theorem foldr_max_mem (l : List Nat) (hl : l ≠ []) :
    ∃ x ∈ l, l.foldr max 0 = x := by
  induction l with
  | nil => simp at hl
  | cons y l' ih =>
    cases l' with
    | nil => exact ⟨y, by simp, by simp⟩
    | cons z l'' =>
      obtain ⟨x, hx, hfold⟩ := ih (by simp)
      by_cases hcmp : (z :: l'').foldr max 0 ≤ y
      · refine ⟨y, by simp, ?_⟩
        simp only [List.foldr_cons] at hcmp ⊢
        omega
      · refine ⟨x, List.mem_cons_of_mem _ hx, ?_⟩
        simp only [List.foldr_cons] at hcmp hfold ⊢
        omega

/-- Reading a block mask row. -/
theorem getD_replicate_append {α : Type} (a b : Nat) (x y dflt : α) (j : Nat) :
    (List.replicate a x ++ List.replicate b y).getD j dflt
      = if j < a then x else if j < a + b then y else dflt := by
  by_cases h1 : j < a
  · rw [List.getD_append _ _ _ j (by simpa using h1)]
    simp [h1, List.getD_eq_getElem, List.getElem_replicate,
      (by simpa using h1 : j < (List.replicate a x).length)]
  · by_cases h2 : j < a + b
    · have hj : j < (List.replicate a x ++ List.replicate b y).length := by
        simp; omega
      rw [List.getD_eq_getElem _ _ hj, List.getElem_append]
      have h1' : ¬ j < (List.replicate a x).length := by simpa using h1
      rw [dif_neg h1']
      simp [h1, h2, List.getElem_replicate]
    · have hj : ¬ j < (List.replicate a x ++ List.replicate b y).length := by
        simp; omega
      rw [List.getD_eq_default _ _ (by simp at hj ⊢; omega)]
      simp [h1, h2]

/-- Reading a `zipWith` at an in-range index. -/
theorem getD_zipWith_of_lt {α β γ : Type} (f : α → β → γ) (l₁ : List α)
    (l₂ : List β) (d₁ : α) (d₂ : β) (d : γ) (r : Nat) (h₁ : r < l₁.length)
    (h₂ : r < l₂.length) :
    (List.zipWith f l₁ l₂).getD r d = f (l₁.getD r d₁) (l₂.getD r d₂) := by
  rw [List.getD_eq_getElem _ _ (by rw [List.length_zipWith]; omega),
    List.getElem_zipWith, List.getD_eq_getElem _ _ h₁,
    List.getD_eq_getElem _ _ h₂]

/-- Reading a `map` at an in-range index. -/
theorem getD_map_of_lt {α β : Type} (f : α → β) (l : List α) (d₁ : α) (d : β)
    (r : Nat) (h : r < l.length) :
    (l.map f).getD r d = f (l.getD r d₁) := by
  rw [List.getD_eq_getElem _ _ (by simpa), List.getElem_map,
    List.getD_eq_getElem _ _ h]

/-- The two `squeeze_pad` implementations are one and the same function. -/
theorem squeeze_pad_naive_eq {α : Type} [Inhabited α]
    (hidden_states : List (List α)) (masks : List (List Nat)) :
    NaiveMindReasoner.squeeze_pad hidden_states masks
      = MindReasoner.squeeze_pad hidden_states masks := by
  simp only [NaiveMindReasoner.squeeze_pad, MindReasoner.squeeze_pad,
    offset_eq_naive]

/-- Full specification of `squeeze_pad`: both outputs keep one row per input
row; each output mask row is `maxOnes masks - onesCount` zeros followed by
`onesCount` ones; each output hidden row has length `maxOnes masks`, ends
with exactly the vectors at the nonzero-mask positions of its input row (in
order), and contains only vectors of its input row. -/
theorem squeeze_pad_spec {α : Type} [Inhabited α]
    (hidden_states : List (List α)) (masks : List (List Nat)) (L : Nat)
    (hL : L = (masks.headD []).length)
    (hbs : hidden_states.length = masks.length)
    (hrowM : ∀ m ∈ masks, m.length = L)
    (hrowH : ∀ h ∈ hidden_states, h.length = L)
    (h01 : ∀ m ∈ masks, ∀ v ∈ m, v = 0 ∨ v = 1) :
    (MindReasoner.squeeze_pad hidden_states masks).1.length = masks.length
    ∧ (MindReasoner.squeeze_pad hidden_states masks).2.1.length = masks.length
    ∧ (∀ r : Nat, r < masks.length →
        onesCount (masks.getD r []) ≤ maxOnes masks
        ∧ (MindReasoner.squeeze_pad hidden_states masks).2.1.getD r []
            = List.replicate (maxOnes masks - onesCount (masks.getD r [])) 0
              ++ List.replicate (onesCount (masks.getD r [])) 1
        ∧ ((MindReasoner.squeeze_pad hidden_states masks).1.getD r []).length
            = maxOnes masks
        ∧ ((MindReasoner.squeeze_pad hidden_states masks).1.getD r []).drop
              (maxOnes masks - onesCount (masks.getD r []))
            = selectedVectors (masks.getD r []) (hidden_states.getD r [])
        ∧ (∀ v ∈ (MindReasoner.squeeze_pad hidden_states masks).1.getD r [],
            v ∈ hidden_states.getD r [])) := by
  set off := MindReasoner.offset ((masks.headD []).length) with hoffdef
  set idxs := masks.map (fun m =>
    tensorSortIdx (List.zipWith (fun v o => (if v != 0 then 1 else 0) * o) m off))
    with hidxs
  set masks1 := List.zipWith (fun m idx => idx.map (fun i => m.getD i 0)) masks
    idxs with hmasks1
  set hidden1 := List.zipWith (fun h idx => idx.map (fun i => h.getD i default))
    hidden_states idxs with hhidden1
  set masks_sum := (List.range ((masks.headD []).length)).map
    (fun j => (masks1.map (fun r => r.getD j 0)).sum) with hmsum
  set keep := masks_sum.map (fun s => decide (0 < s)) with hkeepdef
  have hsq : MindReasoner.squeeze_pad hidden_states masks
      = (hidden1.map (fun r => maskSelect keep r),
         masks1.map (fun r => maskSelect keep r),
         List.replicate masks1.length keep) := rfl
  have hoffL : off = MindReasoner.offset L := by rw [hoffdef, ← hL]
  have hidxsLen : idxs.length = masks.length := by
    rw [hidxs, List.length_map]
  have hmasks1Len : masks1.length = masks.length := by
    rw [hmasks1, List.length_zipWith, hidxsLen]
    omega
  have hhidden1Len : hidden1.length = masks.length := by
    rw [hhidden1, List.length_zipWith, hidxsLen, hbs]
    omega
  have hmsumLen : masks_sum.length = L := by
    rw [hmsum, List.length_map, List.length_range, ← hL]
  have hkeepLen : keep.length = L := by
    rw [hkeepdef, List.length_map, hmsumLen]
  have hmem : ∀ r : Nat, r < masks.length → masks.getD r [] ∈ masks := by
    intro r hr
    rw [List.getD_eq_getElem _ _ hr]
    exact List.getElem_mem _
  have hmemH : ∀ r : Nat, r < masks.length →
      hidden_states.getD r [] ∈ hidden_states := by
    intro r hr
    rw [List.getD_eq_getElem _ _ (by omega : r < hidden_states.length)]
    exact List.getElem_mem _
  have hcK : ∀ r : Nat, r < masks.length →
      onesCount (masks.getD r []) ≤ maxOnes masks := by
    intro r hr
    exact le_foldr_max _ _ (List.mem_map_of_mem onesCount (hmem r hr))
  have hcL : ∀ r : Nat, r < masks.length → onesCount (masks.getD r []) ≤ L := by
    intro r hr
    calc onesCount (masks.getD r [])
        ≤ (masks.getD r []).length := List.countP_le_length _
      _ = L := hrowM _ (hmem r hr)
  have hKL : maxOnes masks ≤ L := by
    by_cases hnil : masks = []
    · subst hnil
      simp [maxOnes]
    · obtain ⟨x, hx, hfold⟩ := foldr_max_mem (masks.map onesCount)
        (by simpa using hnil)
      obtain ⟨m, hmm, rfl⟩ := List.mem_map.mp hx
      calc maxOnes masks = onesCount m := hfold
        _ ≤ m.length := List.countP_le_length _
        _ = L := hrowM _ hmm
  have hattain : masks ≠ [] → ∃ r : Nat, r < masks.length
      ∧ onesCount (masks.getD r []) = maxOnes masks := by
    intro hne
    obtain ⟨x, hx, hfold⟩ := foldr_max_mem (masks.map onesCount)
      (by simpa using hne)
    obtain ⟨m, hmm, rfl⟩ := List.mem_map.mp hx
    obtain ⟨r, hr, hEq⟩ := List.mem_iff_getElem.mp hmm
    refine ⟨r, hr, ?_⟩
    rw [List.getD_eq_getElem _ _ hr, hEq]
    exact hfold.symm
  have hLnil : masks = [] → L = 0 := by
    intro h
    rw [hL, h]
    rfl
  -- row forms of the sorted stage
  have hidx_r : ∀ r : Nat, r < masks.length → idxs.getD r []
      = tensorSortIdx (List.zipWith (fun v o => (if v != 0 then 1 else 0) * o)
          (masks.getD r []) (MindReasoner.offset L)) := by
    intro r hr
    rw [hidxs, getD_map_of_lt _ masks [] [] r hr, hoffL]
  have hrow_mask1 : ∀ r : Nat, r < masks.length → masks1.getD r []
      = List.replicate (L - onesCount (masks.getD r [])) 0
        ++ List.replicate (onesCount (masks.getD r [])) 1 := by
    intro r hr
    rw [hmasks1, getD_zipWith_of_lt _ masks idxs [] [] [] r hr (by omega)]
    rw [hidx_r r hr]
    exact row_gather_mask L (masks.getD r []) (hrowM _ (hmem r hr))
      (h01 _ (hmem r hr))
  have hrow_hidden1 : ∀ r : Nat, r < masks.length →
      ∃ zs : List α,
        hidden1.getD r [] = zs ++ selectedVectors (masks.getD r [])
          (hidden_states.getD r [])
        ∧ zs.length = L - onesCount (masks.getD r [])
        ∧ (∀ v ∈ zs, v ∈ hidden_states.getD r []) := by
    intro r hr
    rw [hhidden1, getD_zipWith_of_lt _ hidden_states idxs [] [] [] r (by omega)
      (by omega)]
    rw [hidx_r r hr]
    exact row_gather_hidden L (masks.getD r []) (hidden_states.getD r [])
      (hrowM _ (hmem r hr)) (hrowH _ (hmemH r hr))
  -- column sums and the keep mask
  have hrow_val : ∀ r j : Nat, r < masks.length → j < L →
      (masks1.getD r []).getD j 0
        = if j < L - onesCount (masks.getD r []) then 0 else 1 := by
    intro r j hr hj
    rw [hrow_mask1 r hr, getD_replicate_append]
    have hc := hcL r hr
    split
    · rfl
    · rw [if_pos (by omega)]
  have hsum_getD : ∀ j : Nat, j < L →
      masks_sum.getD j 0 = (masks1.map (fun row => row.getD j 0)).sum := by
    intro j hj
    have hrange : (List.range ((masks.headD []).length)).getD j 0 = j := by
      rw [List.getD_eq_getElem _ _ (by rw [List.length_range, ← hL]; omega)]
      exact List.getElem_range j _
    rw [hmsum, getD_map_of_lt _ _ 0 0 j (by rw [List.length_range, ← hL]; omega),
      hrange]
  have hsum_pos : ∀ j : Nat, j < L →
      (0 < masks_sum.getD j 0 ↔
        ∃ r : Nat, r < masks.length ∧ L - onesCount (masks.getD r []) ≤ j) := by
    intro j hj
    rw [hsum_getD j hj]
    constructor
    · intro hpos
      by_contra hno
      push_neg at hno
      have hz : ∀ x ∈ masks1.map (fun row => row.getD j 0), x = 0 := by
        intro x hx
        obtain ⟨row, hrowm, rfl⟩ := List.mem_map.mp hx
        obtain ⟨r, hr, hrEq⟩ := List.mem_iff_getElem.mp hrowm
        have hrlt : r < masks.length := by omega
        have hrowD : row = masks1.getD r [] := by
          rw [List.getD_eq_getElem _ _ hr, hrEq]
        rw [hrowD, hrow_val r j hrlt hj, if_pos (hno r hrlt)]
      have hzero : (masks1.map (fun row => row.getD j 0)).sum = 0 :=
        List.sum_eq_zero_iff.mpr hz
      omega
    · rintro ⟨r, hr, hle⟩
      have hmem1 : masks1.getD r [] ∈ masks1 := by
        rw [List.getD_eq_getElem _ _ (by omega : r < masks1.length)]
        exact List.getElem_mem _
      have hval : (masks1.getD r []).getD j 0 = 1 := by
        rw [hrow_val r j hr hj, if_neg (by omega)]
      have hmemmap : (masks1.getD r []).getD j 0
          ∈ masks1.map (fun row => row.getD j 0) :=
        List.mem_map_of_mem _ hmem1
      have hle2 := List.single_le_sum
        (by intro x hx; exact Nat.zero_le x) _ hmemmap
      omega
  have hkeep_eq : keep = List.replicate (L - maxOnes masks) false
      ++ List.replicate (maxOnes masks) true := by
    apply List.ext_getElem
    · rw [hkeepLen]
      simp only [List.length_append, List.length_replicate]
      omega
    · intro j h1 h2
      have hjL : j < L := by rw [hkeepLen] at h1; exact h1
      have hkj : keep[j] = decide (0 < masks_sum.getD j 0) := by
        have hgd : keep.getD j false = decide (0 < masks_sum.getD j 0) := by
          rw [hkeepdef, getD_map_of_lt _ _ 0 false j (by omega)]
        rw [← List.getD_eq_getElem keep false h1, hgd]
      have hrhs : (List.replicate (L - maxOnes masks) false
          ++ List.replicate (maxOnes masks) true)[j]
          = if j < L - maxOnes masks then false else true := by
        rw [← List.getD_eq_getElem _ false h2, getD_replicate_append]
        split
        · rfl
        · rw [if_pos (by omega)]
      rw [hkj, hrhs]
      by_cases hcase : j < L - maxOnes masks
      · rw [if_pos hcase]
        have hnot : ¬ 0 < masks_sum.getD j 0 := by
          rw [hsum_pos j hjL]
          rintro ⟨r, hr, hler⟩
          have := hcK r hr
          omega
        simpa using hnot
      · rw [if_neg hcase]
        have hne : masks ≠ [] := by
          intro hnil
          have := hLnil hnil
          omega
        obtain ⟨r, hr, hrK⟩ := hattain hne
        have hpos : 0 < masks_sum.getD j 0 := by
          rw [hsum_pos j hjL]
          exact ⟨r, hr, by omega⟩
        simpa using hpos
  -- assembling the outputs
  rw [hsq]
  refine ⟨?_, ?_, ?_⟩
  · simp only [List.length_map]
    omega
  · simp only [List.length_map]
    omega
  · intro r hr
    have hc := hcL r hr
    have hcKr := hcK r hr
    have hmask2 : (masks1.map (fun row => maskSelect keep row)).getD r []
        = List.replicate (maxOnes masks - onesCount (masks.getD r [])) 0
          ++ List.replicate (onesCount (masks.getD r [])) 1 := by
      rw [getD_map_of_lt _ masks1 [] [] r (by omega), hrow_mask1 r hr,
        hkeep_eq, maskSelect_replicate, List.drop_append_eq_append_drop,
        List.drop_replicate, List.length_replicate]
      have h1 : L - onesCount (masks.getD r []) - (L - maxOnes masks)
          = maxOnes masks - onesCount (masks.getD r []) := by omega
      have h2 : L - maxOnes masks - (L - onesCount (masks.getD r [])) = 0 := by
        omega
      rw [h1, h2, List.drop_zero]
      apply List.take_of_length_le
      simp only [List.length_append, List.length_replicate]
      omega
    obtain ⟨zs, hzeq, hzlen, hzmem⟩ := hrow_hidden1 r hr
    have hsellen : (selectedVectors (masks.getD r [])
        (hidden_states.getD r [])).length = onesCount (masks.getD r []) := by
      apply selectedVectors_length
      rw [hrowM _ (hmem r hr), hrowH _ (hmemH r hr)]
    have hhid2 : (hidden1.map (fun row => maskSelect keep row)).getD r []
        = zs.drop (L - maxOnes masks)
          ++ selectedVectors (masks.getD r []) (hidden_states.getD r []) := by
      rw [getD_map_of_lt _ hidden1 [] [] r (by omega), hzeq, hkeep_eq,
        maskSelect_replicate, List.drop_append_eq_append_drop]
      have h2 : L - maxOnes masks - zs.length = 0 := by omega
      rw [h2, List.drop_zero]
      apply List.take_of_length_le
      simp only [List.length_append, List.length_drop, hzlen, hsellen]
      omega
    have hzdroplen : (zs.drop (L - maxOnes masks)).length
        = maxOnes masks - onesCount (masks.getD r []) := by
      rw [List.length_drop, hzlen]
      omega
    refine ⟨hcKr, hmask2, ?_, ?_, ?_⟩
    · rw [hhid2]
      simp only [List.length_append, hzdroplen, hsellen]
      omega
    · rw [hhid2, ← hzdroplen, List.drop_left]
    · intro v hv
      rw [hhid2] at hv
      rcases List.mem_append.mp hv with hv' | hv'
      · exact hzmem v (List.mem_of_mem_drop hv')
      · exact selectedVectors_subset _ _ v hv'

/-- C1: padding compaction is content-preserving.  For every batch of hidden
states (`bs` rows) and every 0/1 mask batch of row length `L`, `squeeze_pad`
(either implementation) returns one output row per input row; every output
mask row has length `maxOnes masks` (the maximum over rows of the
number of 1-entries) and consists of `maxOnes - onesCount` zeros followed by
`onesCount` ones; every output hidden row has length `maxOnes masks`, its
last `onesCount` entries are exactly the hidden vectors at the input 1-mask
positions, right-aligned in their original relative order with no position
dropped or duplicated, and every entry of the output row is a vector of the
corresponding input row. -/
theorem padding_compaction_content_preserving {α : Type} [Inhabited α]
    (hidden_states : List (List α)) (masks : List (List Nat)) (L : Nat)
    (hL : L = (masks.headD []).length)
    (hbs : hidden_states.length = masks.length)
    (hrowM : ∀ m ∈ masks, m.length = L)
    (hrowH : ∀ h ∈ hidden_states, h.length = L)
    (h01 : ∀ m ∈ masks, ∀ v ∈ m, v = 0 ∨ v = 1) :
    ∀ out ∈ [MindReasoner.squeeze_pad hidden_states masks,
      NaiveMindReasoner.squeeze_pad hidden_states masks],
      out.1.length = masks.length
      ∧ out.2.1.length = masks.length
      ∧ (∀ r : Nat, r < masks.length →
          onesCount (masks.getD r []) ≤ maxOnes masks
          ∧ out.2.1.getD r []
              = List.replicate (maxOnes masks - onesCount (masks.getD r [])) 0
                ++ List.replicate (onesCount (masks.getD r [])) 1
          ∧ (out.1.getD r []).length = maxOnes masks
          ∧ (out.1.getD r []).drop (maxOnes masks - onesCount (masks.getD r []))
              = selectedVectors (masks.getD r []) (hidden_states.getD r [])
          ∧ (∀ v ∈ out.1.getD r [], v ∈ hidden_states.getD r [])) := by
  intro out hout
  have hspec := squeeze_pad_spec hidden_states masks L hL hbs hrowM hrowH h01
  rcases List.mem_cons.mp hout with rfl | hout'
  · exact hspec
  · rcases List.mem_cons.mp hout' with rfl | hfalse
    · rw [squeeze_pad_naive_eq]
      exact hspec
    · simp at hfalse

/-- Witness for C1 at a concrete batch: `bs = 2`, `L = 3`, masks
`[[1,0,1],[0,0,1]]`, hidden rows `[[10,20,30],[40,50,60]]`; the compacted
width is `2`, row 0 keeps `[10, 30]` with mask `[1, 1]`. -/
theorem padding_compaction_witness :
    (MindReasoner.squeeze_pad ([[10,20,30],[40,50,60]] : List (List Nat))
        [[1,0,1],[0,0,1]]).2.1.getD 0 [] = [1, 1]
    ∧ ((MindReasoner.squeeze_pad ([[10,20,30],[40,50,60]] : List (List Nat))
        [[1,0,1],[0,0,1]]).1.getD 0 []).drop 0 = [10, 30] := by
  have h := padding_compaction_content_preserving (α := Nat)
    [[10,20,30],[40,50,60]] [[1,0,1],[0,0,1]] 3 (by decide) (by decide)
    (by decide) (by decide) (by decide)
  obtain ⟨-, -, h3⟩ := h (MindReasoner.squeeze_pad
    ([[10,20,30],[40,50,60]] : List (List Nat)) [[1,0,1],[0,0,1]])
    (List.mem_cons_self _ _)
  obtain ⟨-, hmask, -, hdrop, -⟩ := h3 0 (by decide)
  constructor
  · rw [hmask]
    decide
  · have h1 : maxOnes [[1,0,1],[0,0,1]]
        - onesCount (([[1,0,1],[0,0,1]] : List (List Nat)).getD 0 []) = 0 := by
      decide
    have h2 : selectedVectors (([[1,0,1],[0,0,1]] : List (List Nat)).getD 0 [])
        (([[10,20,30],[40,50,60]] : List (List Nat)).getD 0 []) = [10, 30] := by
      decide
    rw [h1, h2] at hdrop
    exact hdrop

/-- C2: the two padding-compaction implementations are extensionally equal
(same hidden states, same masks, same index tensor), and the offset tensor
built by the list comprehension equals `torch.arange(1, seq_num_len + 1)`. -/
theorem squeeze_pad_implementations_equivalent {α : Type} [Inhabited α]
    (hidden_states : List (List α)) (masks : List (List Nat))
    (seq_num_len : Nat) :
    MindReasoner.squeeze_pad hidden_states masks
      = NaiveMindReasoner.squeeze_pad hidden_states masks
    ∧ MindReasoner.offset seq_num_len = arange 1 (seq_num_len + 1) := by
  refine ⟨(squeeze_pad_naive_eq hidden_states masks).symm, ?_⟩
  rw [offset_eq_naive seq_num_len]
  rfl

/-- C3: frozen-backbone invariant.  Right after construction with
`use_lora = False`, both constructors succeed with the same state: every
translation-model parameter and every language-model parameter has
`requires_grad = False`, and every parameter of the mapping network is
trainable. -/
theorem frozen_backbone_invariant (mt_params llm_params : List TorchParam)
    (lora_r lora_alpha : Nat) (lora_dropout : ℚ) (target_modules : List String)
    (peft_available : Bool) :
    ∃ s s' : ReasonerState,
      MindReasoner.init mt_params llm_params false lora_r lora_alpha
        lora_dropout peft_available = Except.ok s
      ∧ NaiveMindReasoner.init mt_params llm_params false lora_r lora_alpha
          lora_dropout target_modules peft_available = Except.ok s'
      ∧ s' = s
      ∧ (∀ p ∈ s.model_mt, p.requiresGrad = false)
      ∧ (∀ p ∈ s.model_llm, p.requiresGrad = false)
      ∧ (∀ p ∈ s.mapping.params, p.requiresGrad = true)
      ∧ s.lora = none := by
  refine ⟨⟨mt_params.map (fun _ => TorchParam.mk false),
    llm_params.map (fun _ => TorchParam.mk false), MappingNet.init, false, none⟩,
    ⟨mt_params.map (fun _ => TorchParam.mk false),
    llm_params.map (fun _ => TorchParam.mk false), MappingNet.init, false, none⟩,
    ?_, ?_, rfl, ?_, ?_, ?_, rfl⟩
  · simp [MindReasoner.init]
  · simp [NaiveMindReasoner.init]
  · intro p hp
    obtain ⟨q, -, rfl⟩ := List.mem_map.mp hp
    rfl
  · intro p hp
    obtain ⟨q, -, rfl⟩ := List.mem_map.mp hp
    rfl
  · intro p hp
    simp [MappingNet.params, MappingNet.init] at hp
    rcases hp with rfl | rfl | rfl | rfl | rfl <;> rfl

/-- C6: optional-dependency failure.  Both constructors raise `ImportError`
exactly when `use_lora` is on and `peft` is unavailable; with `use_lora`
off they succeed without injecting any LoRA configuration, and with
`use_lora` on and `peft` available they succeed and inject the LoRA
configuration. -/
theorem lora_import_error_iff (mt_params llm_params : List TorchParam)
    (use_lora : Bool) (lora_r lora_alpha : Nat) (lora_dropout : ℚ)
    (target_modules : List String) (peft_available : Bool) :
    MindReasoner.init mt_params llm_params use_lora lora_r lora_alpha
        lora_dropout peft_available
      = (if use_lora && !peft_available then
          Except.error
            ("peft is not installed. Please install via pip install peft.")
        else Except.ok ⟨mt_params.map (fun _ => TorchParam.mk false),
          llm_params.map (fun _ => TorchParam.mk false), MappingNet.init,
          use_lora,
          if use_lora then
            some ⟨lora_r, lora_alpha, lora_dropout, ["q_proj", "v_proj"]⟩
          else none⟩)
    ∧ NaiveMindReasoner.init mt_params llm_params use_lora lora_r lora_alpha
        lora_dropout target_modules peft_available
      = (if use_lora && !peft_available then
          Except.error
            ("peft is not installed. Please install via pip install peft.")
        else Except.ok ⟨mt_params.map (fun _ => TorchParam.mk false),
          llm_params.map (fun _ => TorchParam.mk false), MappingNet.init,
          use_lora,
          if use_lora then
            some ⟨lora_r, lora_alpha, lora_dropout, target_modules⟩
          else none⟩) := by
  cases use_lora <;> cases peft_available <;>
    simp [MindReasoner.init, NaiveMindReasoner.init]

/-- C4: the mapping network is exactly a one-hidden-layer projector.
`Mapping.forward` is `linear2(relu(linear1(x)))`; with the shapes of
`MLP.__init__(mt_dim, llm_dim)`, `linear1` maps a vector of length `mt_dim`
to one of length `2 * mt_dim` and the final output has length `llm_dim`;
`forward` writes nothing, so `get_embed` still returns the unchanged
`end_boundary`. -/
theorem mapping_forward_spec (m : Mapping) (mt_dim llm_dim : Nat) (x : List ℚ)
    (hwf : m.mlp.wf mt_dim llm_dim) (hx : x.length = mt_dim) :
    Mapping.forward m x
      = linearF m.mlp.linear2_w m.mlp.linear2_b
          (reluF (linearF m.mlp.linear1_w m.mlp.linear1_b x))
    ∧ (linearF m.mlp.linear1_w m.mlp.linear1_b x).length = 2 * mt_dim
    ∧ (Mapping.forward m x).length = llm_dim
    ∧ Mapping.get_embed m = m.end_boundary := by
  obtain ⟨h1w, -, h1b, h2w, -, h2b⟩ := hwf
  refine ⟨rfl, ?_, ?_, rfl⟩
  · rw [linearF, List.length_zipWith, matVec, List.length_map, h1w, h1b]
    omega
  · show (linearF m.mlp.linear2_w m.mlp.linear2_b _).length = llm_dim
    rw [linearF, List.length_zipWith, matVec, List.length_map, h2w, h2b]
    omega

/-- Witness for C4 at `mt_dim = 1`, `llm_dim = 1`. -/
theorem mapping_forward_witness :
    Mapping.forward ⟨⟨[[1], [2]], [0, 0], [[1, 1]], [0]⟩, [5]⟩ [3] = [9]
    ∧ (Mapping.forward ⟨⟨[[1], [2]], [0, 0], [[1, 1]], [0]⟩, [5]⟩ [3]).length
        = 1 := by
  have h := mapping_forward_spec ⟨⟨[[1], [2]], [0, 0], [[1, 1]], [0]⟩, [5]⟩ 1 1
    [3] ⟨rfl, by simp, rfl, rfl, by simp, rfl⟩ rfl
  refine ⟨?_, h.2.2.1⟩
  rw [h.1]
  norm_num [linearF, matVec, reluF]

/-- Per-row form of the label-masking identity. -/
theorem mask_label_row (lrow mrow : List Int)
    (h01 : ∀ v ∈ mrow, v = 0 ∨ v = 1) :
    List.zipWith (fun l m => l * m - 100 * (1 - m)) lrow mrow
      = List.zipWith (fun l m => if m = 1 then l else -100) lrow mrow := by
  induction lrow generalizing mrow with
  | nil => simp
  | cons l lrow' ih =>
    cases mrow with
    | nil => simp
    | cons v mrow' =>
      have hv := h01 v (List.mem_cons_self _ _)
      have htail : ∀ w ∈ mrow', w = 0 ∨ w = 1 :=
        fun w hw => h01 w (List.mem_cons_of_mem _ hw)
      simp only [List.zipWith_cons_cons, ih mrow' htail]
      rcases hv with rfl | rfl
      · norm_num
      · norm_num

/-- C5: the `pad_labels` expression is the constant `-100` at every position
(regardless of the mask values), and for a 0/1-valued `mask_label` the
masked labels keep the token id where the mask is 1 and become `-100` where
it is 0. -/
theorem label_masking_spec (mask labels mask_label : List (List Int))
    (h01 : ∀ row ∈ mask_label, ∀ v ∈ row, v = 0 ∨ v = 1) :
    pad_labels mask = mask.map (fun row => row.map (fun _ => (-100 : Int)))
    ∧ mask_labels labels mask_label
        = List.zipWith (fun lrow mrow =>
            List.zipWith (fun l m => if m = 1 then l else -100) lrow mrow)
          labels mask_label := by
  constructor
  · rw [pad_labels]
    apply List.map_congr_left
    intro row _
    apply List.map_congr_left
    intro v _
    ring
  · rw [mask_labels]
    induction labels generalizing mask_label with
    | nil => simp
    | cons lrow labels' ih =>
      cases mask_label with
      | nil => simp
      | cons mrow mask_label' =>
        have hhead := h01 mrow (List.mem_cons_self _ _)
        have htail : ∀ row ∈ mask_label', ∀ v ∈ row, v = 0 ∨ v = 1 :=
          fun row hr => h01 row (List.mem_cons_of_mem _ hr)
        simp only [List.zipWith_cons_cons, ih mask_label' htail,
          mask_label_row lrow mrow hhead]

/-- Witness for C5 at a concrete batch. -/
theorem label_masking_witness :
    pad_labels [[1, 0], [1, 1]]
        = [[(-100 : Int), -100], [-100, -100]]
    ∧ mask_labels [[7, 8], [9, 11]] [[1, 0], [0, 1]]
        = [[(7 : Int), -100], [-100, 11]] := by
  have h := label_masking_spec [[1, 0], [1, 1]] [[7, 8], [9, 11]]
    [[1, 0], [0, 1]] (by decide)
  refine ⟨?_, ?_⟩
  · rw [h.1]
    decide
  · rw [h.2]
    decide

/-- C7: stage dispatch is total over exactly the three stages: a training
set is selected iff `stage_name` is `mapping`, `augmentation` or
`reasoning`; any other value raises `ValueError`; and LoRA is enabled iff
`stage_name` is `reasoning`. -/
theorem stage_dispatch_total (stage_name task : String) (train_num : Nat) :
    ((∃ t, select_train_set stage_name task train_num = Except.ok t)
      ↔ (stage_name = "mapping" ∨ stage_name = "augmentation"
          ∨ stage_name = "reasoning"))
    ∧ (stage_name ≠ "mapping" → stage_name ≠ "augmentation" →
        stage_name ≠ "reasoning" →
        select_train_set stage_name task train_num
          = Except.error ("Unknown stage_name: " ++ stage_name))
    ∧ (use_lora_for_stage stage_name = true ↔ stage_name = "reasoning") := by
  refine ⟨⟨?_, ?_⟩, ?_, ?_⟩
  · rintro ⟨t, ht⟩
    by_contra hno
    push_neg at hno
    obtain ⟨hn1, hn2, hn3⟩ := hno
    rw [select_train_set, if_neg hn1, if_neg hn2, if_neg hn3] at ht
    simp at ht
  · rintro (rfl | rfl | rfl)
    · rw [select_train_set, if_pos rfl]
      split_ifs <;> exact ⟨_, rfl⟩
    · rw [select_train_set, if_neg (by decide), if_pos rfl]
      split_ifs <;> exact ⟨_, rfl⟩
    · rw [select_train_set, if_neg (by decide), if_neg (by decide), if_pos rfl]
      split_ifs <;> exact ⟨_, rfl⟩
  · intro hn1 hn2 hn3
    rw [select_train_set, if_neg hn1, if_neg hn2, if_neg hn3]
  · simp [use_lora_for_stage]

/-- C8: the gradient-accumulation assertion succeeds exactly when the
product of micro batch size and GPU count divides the train batch size. -/
theorem grad_accum_assert_iff (train_batch_size micro gpu_num : Nat)
    (h1 : 0 < train_batch_size) (h2 : 0 < micro) (h3 : 0 < gpu_num) :
    grad_accum_assert train_batch_size micro gpu_num = true
      ↔ (micro * gpu_num) ∣ train_batch_size := by
  rw [grad_accum_assert, gradient_accumulation, beq_iff_eq]
  constructor
  · intro h
    exact ⟨train_batch_size / (micro * gpu_num), h.symm⟩
  · intro h
    exact Nat.mul_div_cancel' h

/-- Witness for C8: batch size 24 with one sample per GPU on two GPUs. -/
theorem grad_accum_assert_witness :
    0 < 24 ∧ 0 < 1 ∧ 0 < 2
    ∧ (grad_accum_assert 24 1 2 = true ↔ (1 * 2) ∣ 24) := by
  exact ⟨by decide, by decide, by decide,
    grad_accum_assert_iff 24 1 2 (by decide) (by decide) (by decide)⟩

/-- Python `range(0, 0, step)` is empty. -/
theorem pyRange_zero (step : Nat) (hs : 1 ≤ step) : pyRange 0 0 step = [] := by
  rw [pyRange]
  have : (0 - 0 + step - 1) / step = 0 := Nat.div_eq_of_lt (by omega)
  rw [this]
  rfl

/-- Peeling the first slice off the batching loop. -/
theorem batches_cons {α : Type} (xs : List α) (bs : Nat) (hbs : 1 ≤ bs)
    (hne : xs ≠ []) :
    batches xs bs = xs.take bs :: batches (xs.drop bs) bs := by
  have hn : 1 ≤ xs.length := List.length_pos.mpr hne
  have hcount : (xs.length - 0 + bs - 1) / bs
      = (xs.length - 1) / bs + 1 := by
    have h1 : xs.length - 0 + bs - 1 = (xs.length - 1) + bs := by omega
    rw [h1, Nat.add_div_right _ (by omega)]
  have hcount' : ((xs.drop bs).length - 0 + bs - 1) / bs
      = (xs.length - 1) / bs := by
    rw [List.length_drop]
    by_cases hcase : xs.length ≤ bs
    · have h1 : xs.length - bs = 0 := by omega
      rw [h1]
      have h2 : (0 - 0 + bs - 1) / bs = 0 := Nat.div_eq_of_lt (by omega)
      have h3 : (xs.length - 1) / bs = 0 := Nat.div_eq_of_lt (by omega)
      rw [h2, h3]
    · have h1 : xs.length - bs - 0 + bs - 1 = xs.length - 1 := by omega
      rw [h1]
  rw [batches, pyRange, hcount, List.range'_succ, List.map_cons,
    List.drop_zero]
  congr 1
  have hshift : List.range' (0 + bs) ((xs.length - 1) / bs) bs
      = List.map (fun x => bs + x) (List.range' 0 ((xs.length - 1) / bs) bs) := by
    rw [Nat.zero_add]
    have h := List.map_add_range' bs 0 ((xs.length - 1) / bs) bs
    rw [Nat.add_zero] at h
    exact h.symm
  rw [hshift, List.map_map, batches, pyRange, hcount']
  apply List.map_congr_left
  intro i _
  simp only [Function.comp_apply]
  rw [List.drop_drop]

/-- The slices of the batching loop cover the sentence list exactly. -/
theorem flatten_batches {α : Type} (bs : Nat) (hbs : 1 ≤ bs) :
    ∀ (n : Nat) (xs : List α), xs.length ≤ n → (batches xs bs).flatten = xs := by
  intro n
  induction n with
  | zero =>
    intro xs hxs
    have : xs = [] := List.length_eq_zero.mp (by omega)
    subst this
    rw [batches, List.length_nil, pyRange_zero bs hbs]
    rfl
  | succ n ih =>
    intro xs hxs
    by_cases hne : xs = []
    · subst hne
      rw [batches, List.length_nil, pyRange_zero bs hbs]
      rfl
    · rw [batches_cons xs bs hbs hne, List.flatten_cons]
      have hlen : (xs.drop bs).length ≤ n := by
        rw [List.length_drop]
        have := List.length_pos.mpr hne
        omega
      rw [ih (xs.drop bs) hlen, List.take_append_drop]

/-- The translation loop is the generator mapped over the slices. -/
theorem translate_eq_map_batches {α β : Type} (gen : List α → List β)
    (sentences : List α) (batch_size : Nat) :
    translate_sentences_in_batches gen sentences batch_size
      = ((batches sentences batch_size).map gen).flatten := by
  rw [translate_sentences_in_batches, batches, List.map_map]
  rfl

/-- C9: batch translation preserves length and order.  The slices
`sentences[i:i+batch_size]` cover every sentence exactly once in order; when
the generate-and-decode step returns one output per batch element, the
returned list has one translation per input sentence; and an elementwise
generator yields exactly the elementwise image, in input order. -/
theorem batch_translation_preserves {α β : Type} (sentences : List α)
    (batch_size : Nat) (gen : List α → List β) (f : α → β)
    (hbs : 1 ≤ batch_size) (hgen : ∀ b, (gen b).length = b.length) :
    (batches sentences batch_size).flatten = sentences
    ∧ (translate_sentences_in_batches gen sentences batch_size).length
        = sentences.length
    ∧ translate_sentences_in_batches (fun b => b.map f) sentences batch_size
        = sentences.map f := by
  have hflat : (batches sentences batch_size).flatten = sentences :=
    flatten_batches batch_size hbs sentences.length sentences le_rfl
  refine ⟨hflat, ?_, ?_⟩
  · rw [translate_eq_map_batches, List.length_flatten, List.map_map]
    have hcong : (batches sentences batch_size).map (List.length ∘ gen)
        = (batches sentences batch_size).map List.length :=
      List.map_congr_left (fun b _ => hgen b)
    rw [hcong, ← List.length_flatten, hflat]
  · rw [translate_eq_map_batches, ← List.map_flatten, hflat]

/-- Witness for C9: three sentences in batches of two, with an elementwise
generator. -/
theorem batch_translation_witness :
    (batches [1, 2, 3] 2).flatten = [1, 2, 3]
    ∧ translate_sentences_in_batches (fun b => b.map (fun x => x + 10))
        [1, 2, 3] 2 = List.map (fun x => x + 10) [1, 2, 3] := by
  have h := batch_translation_preserves [1, 2, 3] 2
    (fun b => b.map (fun x => x + 10)) (fun x => x + 10) (by decide)
    (fun b => by rw [List.length_map])
  exact ⟨h.1, h.2.2⟩

/-- The extraction loop collects exactly the first `ns - i` items. -/
theorem extract_sentences_eq_take (dataset : List (String × String))
    (ns : Nat) : ∀ i : Nat,
    extract_sentences dataset ns i
      = ((dataset.take (ns - i)).map (fun q => q.1),
         (dataset.take (ns - i)).map (fun q => q.2)) := by
  induction dataset with
  | nil => intro i; simp [extract_sentences]
  | cons item rest ih =>
    intro i
    rw [extract_sentences]
    by_cases hle : ns ≤ i
    · rw [if_pos hle]
      have : ns - i = 0 := by omega
      rw [this]
      rfl
    · rw [if_neg hle, ih (i + 1)]
      have : ns - i = (ns - (i + 1)) + 1 := by omega
      rw [this, List.take_succ_cons]
      rfl

/-- C10: harvesting limit and pairing.  The extraction loop collects exactly
`min (dataset length) 9000` pairs; the two written files have the same
number of lines; and line `k` of the source file is paired with line `k` of
the target file, both stripped from dataset item `k`. -/
theorem harvesting_limit_and_pairing (dataset : List (String × String)) :
    (extract_sentences dataset num_samples 0).1.length
        = min dataset.length num_samples
    ∧ (extract_sentences dataset num_samples 0).2.length
        = min dataset.length num_samples
    ∧ (write_pair_files (extract_sentences dataset num_samples 0).1
          (extract_sentences dataset num_samples 0).2).1.length
        = (write_pair_files (extract_sentences dataset num_samples 0).1
            (extract_sentences dataset num_samples 0).2).2.length
    ∧ (write_pair_files (extract_sentences dataset num_samples 0).1
          (extract_sentences dataset num_samples 0).2).1.zip
        (write_pair_files (extract_sentences dataset num_samples 0).1
          (extract_sentences dataset num_samples 0).2).2
      = (dataset.take num_samples).map (fun q => (q.1.trim, q.2.trim)) := by
  rw [extract_sentences_eq_take dataset num_samples 0, Nat.sub_zero]
  have hzip : ((dataset.take num_samples).map (fun q => q.1)).zip
      ((dataset.take num_samples).map (fun q => q.2))
      = dataset.take num_samples := by
    rw [List.zip_map']
    simp
  refine ⟨?_, ?_, ?_, ?_⟩
  · rw [List.length_map, List.length_take, Nat.min_comm]
  · rw [List.length_map, List.length_take, Nat.min_comm]
  · rw [write_pair_files]
    simp only [List.length_map]
  · rw [write_pair_files]
    simp only [hzip]
    rw [List.zip_map']

end MindMerger
